import Mathlib

/-!
Verification of the hierarchical build-configuration resolver of the
meshtastic-configurator repository (src/api/src/firmware-info.ts).

The TypeScript source is shallowly embedded: strings are lists of
characters, the filesystem is an association list from file paths to file
contents, JavaScript Map and object records become association lists with
JavaScript insertion/overwrite semantics, and the recursive flag resolver
is given an explicit fuel parameter (the source relies on the visited-set
guard for termination; fuel-independence beyond the guarded depth is
proved where a claim needs it).  A JavaScript runtime TypeError (possible
in mapExclusionToConfigKey) is modelled by an Option layer: none is a
thrown error.
-/

namespace FirmwareInfo

/-- Characters of a JavaScript string. -/
abbrev Str := List Char

/-- Whitespace as matched by the \s regex class and String.prototype.trim
for the ASCII range (space, tab, LF, VT, FF, CR). -/
def isWsChar (c : Char) : Bool :=
  c = ' ' || c = '\t' || c = '\n' || c = '\x0b' || c = '\x0c' || c = '\r'

/-- JavaScript String.prototype.trim. -/
def trimStr (s : Str) : Str :=
  ((s.dropWhile isWsChar).reverse.dropWhile isWsChar).reverse

/-- JavaScript String.prototype.split with a single-character separator. -/
def splitOnChar (c : Char) : Str → List Str
  | [] => [[]]
  | x :: xs =>
    if x = c then [] :: splitOnChar c xs
    else
      match splitOnChar c xs with
      | [] => [[x]]
      | r :: rs => (x :: r) :: rs

/-- JavaScript Array.prototype.join with a single space separator. -/
def joinSpace : List Str → Str
  | [] => []
  | [s] => s
  | s :: rest => s ++ ' ' :: joinSpace rest

/-- First-match association lookup (JavaScript Map.get / object read). -/
def lookupAssoc {α : Type} : List (Str × α) → Str → Option α
  | [], _ => none
  | (k, v) :: rest, key => if k = key then some v else lookupAssoc rest key

/-- JavaScript Map.set / object write: overwrite the existing entry in
place, otherwise append a new entry (insertion order preserved). -/
def setAssoc {α : Type} : List (Str × α) → Str → α → List (Str × α)
  | [], key, v => [(key, v)]
  | (k, w) :: rest, key, v =>
    if k = key then (key, v) :: rest else (k, w) :: setAssoc rest key v

/-- JavaScript String.prototype.startsWith for a list-of-characters
pattern. -/
def startsWithStr : Str → Str → Bool
  | _, [] => true
  | [], _ :: _ => false
  | c :: cs, p :: ps => c = p && startsWithStr cs ps

/-- Drop a leading pattern when present. -/
def stripLeading (pat s : Str) : Option Str :=
  match pat with
  | [] => some s
  | p :: ps =>
    match s with
    | [] => none
    | c :: cs => if c = p then stripLeading ps cs else none

/-- JavaScript String.prototype.includes. -/
def isSubstrOf (pat : Str) : Str → Bool
  | [] => startsWithStr [] pat
  | c :: rest => startsWithStr (c :: rest) pat || isSubstrOf pat rest

/-- JavaScript String.prototype.replace with a plain-string pattern and an
empty replacement: remove the first occurrence of the pattern. -/
def removeFirst (pat : Str) : Str → Str
  | [] => []
  | c :: rest =>
    match stripLeading pat (c :: rest) with
    | some remainder => remainder
    | none => c :: removeFirst pat rest

/-- Split on runs of whitespace, as JavaScript split on the one-or-more
whitespace regex followed by dropping empty tokens does in the source
(the source filters falsy tokens right after splitting). -/
def wsSplit (s : Str) : List Str :=
  (splitOnChar ' ' (s.map (fun c => if isWsChar c then ' ' else c))).filter
    (fun t => t ≠ [])

/-! ## INI parser (parseIniFile in the source) -/

/-- A parsed INI section: name, key-value data in insertion order, raw
source text. -/
structure PIniSection where
  name : Str
  data : List (Str × Str)
  rawContent : Str
deriving Repr, DecidableEq

/-- Parser state threaded through the line loop of parseIniFile. -/
structure ParseState where
  sections : List (Str × PIniSection)
  cur : Option Str
  curData : List (Str × Str)
  curRaw : Str
  curKey : Option Str
  curVal : List Str
deriving Repr, DecidableEq

def initParseState : ParseState := ⟨[], none, [], [], none, []⟩

/-- The section-header regex of the source: an opening bracket, one or
more non-bracket characters, a closing bracket, end of line. -/
def matchSectionHeader (trimmed : Str) : Option Str :=
  match trimmed with
  | c :: rest =>
    if c = '[' ∧ rest.getLast? = some ']' then
      let mid := rest.dropLast
      if mid ≠ [] ∧ ']' ∉ mid then some mid else none
    else none
  | [] => none

/-- Index of the first occurrence of a character. -/
def findCharIdx (c : Char) : Str → Option Nat
  | [] => none
  | x :: xs =>
    if x = c then some 0
    else (findCharIdx c xs).map (· + 1)

/-- The key-value regex of the source: one or more non-equals characters,
an equals sign, the rest of the line; key and value are trimmed. -/
def matchKeyValue (trimmed : Str) : Option (Str × Str) :=
  match findCharIdx '=' trimmed with
  | none => none
  | some 0 => none
  | some (n + 1) =>
    some (trimStr (trimmed.take (n + 1)), trimStr (trimmed.drop (n + 2)))

/-- One iteration of the line loop of parseIniFile. -/
def processLine (st : ParseState) (line : Str) : ParseState :=
  let trimmed := trimStr line
  match matchSectionHeader trimmed with
  | some name =>
    -- save previous pending key-value, then the previous section
    let st1 :=
      match st.cur, st.curKey with
      | some _, some k =>
        { st with curData := setAssoc st.curData k (trimStr (joinSpace st.curVal)),
                  curVal := [], curKey := none }
      | _, _ => st
    let st2 :=
      match st1.cur with
      | some cname =>
        { st1 with sections := setAssoc st1.sections cname ⟨cname, st1.curData, st1.curRaw⟩ }
      | none => st1
    { st2 with cur := some name, curData := [], curRaw := line ++ ['\n'] }
  | none =>
    match st.cur with
    | none => st
    | some _ =>
      if trimmed ≠ [] ∧ trimmed.head? ≠ some ';' ∧ trimmed.head? ≠ some '#' then
        let isCont := (line.head? = some ' ' ∨ line.head? = some '\t') ∧ st.curKey.isSome
        if isCont then
          { st with curVal := st.curVal ++ [trimmed], curRaw := st.curRaw ++ line ++ ['\n'] }
        else
          -- flush a pending key; note the source does not clear currentKey here
          let st1 :=
            match st.curKey with
            | some k =>
              { st with curData := setAssoc st.curData k (trimStr (joinSpace st.curVal)),
                        curVal := [] }
            | none => st
          match matchKeyValue trimmed with
          | some (k, v) =>
            { st1 with curKey := some k,
                       curVal := st1.curVal ++ (if v = [] then [] else [v]),
                       curRaw := st1.curRaw ++ line ++ ['\n'] }
          | none => { st1 with curRaw := st1.curRaw ++ line ++ ['\n'] }
      else { st with curRaw := st.curRaw ++ line ++ ['\n'] }

/-- End-of-input flush of parseIniFile. -/
def finalizeParse (st : ParseState) : List (Str × PIniSection) :=
  let st1 :=
    match st.cur, st.curKey with
    | some _, some k =>
      { st with curData := setAssoc st.curData k (trimStr (joinSpace st.curVal)) }
    | _, _ => st
  match st1.cur with
  | some cname => setAssoc st1.sections cname ⟨cname, st1.curData, st1.curRaw⟩
  | none => st1.sections

/-- parseIniFile of the source applied to file contents already in hand. -/
def parseIniContent (content : Str) : List (Str × PIniSection) :=
  finalizeParse ((splitOnChar '\n' content).foldl processLine initParseState)

/-! ## File tree model and locators -/

/-- The filesystem visible to the resolver: an association list from file
paths to file contents, in directory-traversal order. -/
abbrev FileTree := List (Str × Str)

/-- Stand-in for the FIRMWARE_DIR constant of the source. -/
def firmwareDir : Str := "firmware".toList

/-- Path join of the source (node path.join for our simple shapes). -/
def joinPath (a b : Str) : Str := a ++ '/' :: b

/-- The designated root configuration file (main platformio.ini). -/
def mainIniPath : Str := joinPath firmwareDir "platformio.ini".toList

def envColonStr : Str := "env:".toList
def buildFlagsKey : Str := "build_flags".toList
def extendsKey : Str := "extends".toList
def envWordStr : Str := "env".toList
def baseSuffixStr : Str := "_base".toList
def dollarBraceStr : Str := "$\x7b".toList
def srcFilterKey : Str := "build_src_filter".toList

/-- node fs.existsSync over the modelled tree. -/
def existsFile (tree : FileTree) (p : Str) : Bool :=
  (lookupAssoc tree p).isSome

/-- parseIniFile of the source: read the file, parse its contents; a
missing or unreadable file yields the empty section map (the source
catches the read error and returns the empty map). -/
def parseIniAt (tree : FileTree) (p : Str) : List (Str × PIniSection) :=
  match lookupAssoc tree p with
  | none => []
  | some c => parseIniContent c

def sectionExists (sections : List (Str × PIniSection)) (name : Str) : Bool :=
  (lookupAssoc sections name).isSome

/-- Final path component. -/
def baseNameOf (p : Str) : Str :=
  ((p.reverse.takeWhile (fun c => c ≠ '/')).reverse)

/-- findPlatformioIniFiles of the source: all files of the tree named
platformio.ini, in traversal order. -/
def findPlatformioIniFiles (tree : FileTree) : List Str :=
  (tree.map Prod.fst).filter (fun p => baseNameOf p = "platformio.ini".toList)

/-- findEnvironmentFile of the source: first platformio.ini file whose
sections contain env:NAME. -/
def findEnvironmentFile (tree : FileTree) (envName : Str) : Option Str :=
  (findPlatformioIniFiles tree).find?
    (fun p => sectionExists (parseIniAt tree p) (envColonStr ++ envName))

/-- The fixed architecture directory list of the source, in priority
order. -/
def archDirs : List Str :=
  ["nrf52", "esp32", "esp32s3", "esp32c3", "esp32c6", "esp32s2", "rp2xx0",
   "rp2040", "rp2350", "stm32"].map String.toList

/-- findArchBaseFile of the source: per architecture directory, try the
exact base name, then the base name with the first _base removed; first
existing file wins. -/
def findArchBaseFileIn (tree : FileTree) (baseName : Str) : List Str → Option Str
  | [] => none
  | d :: rest =>
    let archFile := joinPath (joinPath (joinPath firmwareDir "arch".toList) d)
      (baseName ++ ".ini".toList)
    if existsFile tree archFile then some archFile
    else
      let archFile2 := joinPath (joinPath (joinPath firmwareDir "arch".toList) d)
        (removeFirst baseSuffixStr baseName ++ ".ini".toList)
      if existsFile tree archFile2 then some archFile2
      else findArchBaseFileIn tree baseName rest

def findArchBaseFile (tree : FileTree) (baseName : Str) : Option Str :=
  findArchBaseFileIn tree baseName archDirs

/-! ## Inheritance resolver (resolveBuildFlags in the source) -/

/-- Visitation key of the source: FILE::SECTION. -/
def mkVisitKey (filePath sectionName : Str) : Str :=
  filePath ++ ':' :: ':' :: sectionName

/-- The flag tokens contributed by one section: its build_flags value
split on whitespace runs, dropping empty tokens and unresolved variable
substitutions (tokens beginning with a dollar-brace). -/
def ownFlagTokens (sec : PIniSection) : List Str :=
  (wsSplit ((lookupAssoc sec.data buildFlagsKey).getD [])).filter
    (fun t => !startsWithStr t dollarBraceStr)

/-- resolveBuildFlags of the source.  The visited set is threaded
explicitly (the source mutates a shared Set), and the recursion carries
fuel; the visited-set guard makes any fuel of at least the number of
distinct visitable keys plus one sufficient.  Returns the accumulated
flag list and the final visited list. -/
def resolveBuildFlagsAux (tree : FileTree) (fuel : Nat) (sectionName filePath : Str)
    (visited : List Str) : List Str × List Str :=
  match fuel with
  | 0 => ([], visited)
  | fuel + 1 =>
    let key := mkVisitKey filePath sectionName
    if key ∈ visited then ([], visited)
    else
      let visited1 := visited ++ [key]
      let sections := parseIniAt tree filePath
      match lookupAssoc sections sectionName with
      | none => ([], visited1)
      | some sec =>
        let flags0 := ownFlagTokens sec
        match lookupAssoc sec.data extendsKey with
        | none => (flags0, visited1)
        | some extVal =>
          if extVal = [] then (flags0, visited1)
          else if startsWithStr extVal envColonStr then
            -- reference to another env section
            if sectionExists sections extVal then
              let r := resolveBuildFlagsAux tree fuel extVal filePath visited1
              (flags0 ++ r.1, r.2)
            else
              match findEnvironmentFile tree (removeFirst envColonStr extVal) with
              | some envFile =>
                let r := resolveBuildFlagsAux tree fuel extVal envFile visited1
                (flags0 ++ r.1, r.2)
              | none => (flags0, visited1)
          else
            -- bare base section reference
            let target :=
              if sectionExists sections extVal then
                resolveBuildFlagsAux tree fuel extVal filePath visited1
              else
                match
                  (if isSubstrOf baseSuffixStr extVal then
                    findArchBaseFile tree (removeFirst baseSuffixStr extVal)
                  else none) with
                | some archFile =>
                  resolveBuildFlagsAux tree fuel extVal archFile visited1
                | none =>
                  if existsFile tree mainIniPath ∧ filePath ≠ mainIniPath ∧
                      sectionExists (parseIniAt tree mainIniPath) extVal then
                    resolveBuildFlagsAux tree fuel extVal mainIniPath visited1
                  else ([], visited1)
            -- always also pick up the generic env defaults of the root file
            let envPart :=
              if filePath ≠ mainIniPath ∧ existsFile tree mainIniPath ∧
                  sectionExists (parseIniAt tree mainIniPath) envWordStr then
                resolveBuildFlagsAux tree fuel envWordStr mainIniPath target.2
              else ([], target.2)
            (flags0 ++ target.1 ++ envPart.1, envPart.2)

/-- The body of resolveBuildFlags with the recursive call abstracted as
a parameter; resolveBuildFlagsAux at successor fuel is definitionally
resolveStep applied to itself at the predecessor fuel (proved below by
rfl), which gives controlled one-step unfolding in proofs. -/
def resolveStep (tree : FileTree)
    (recur : Str → Str → List Str → List Str × List Str)
    (sectionName filePath : Str) (visited : List Str) : List Str × List Str :=
  let key := mkVisitKey filePath sectionName
  if key ∈ visited then ([], visited)
  else
    let visited1 := visited ++ [key]
    let sections := parseIniAt tree filePath
    match lookupAssoc sections sectionName with
    | none => ([], visited1)
    | some sec =>
      let flags0 := ownFlagTokens sec
      match lookupAssoc sec.data extendsKey with
      | none => (flags0, visited1)
      | some extVal =>
        if extVal = [] then (flags0, visited1)
        else if startsWithStr extVal envColonStr then
          if sectionExists sections extVal then
            let r := recur extVal filePath visited1
            (flags0 ++ r.1, r.2)
          else
            match findEnvironmentFile tree (removeFirst envColonStr extVal) with
            | some envFile =>
              let r := recur extVal envFile visited1
              (flags0 ++ r.1, r.2)
            | none => (flags0, visited1)
        else
          let target :=
            if sectionExists sections extVal then
              recur extVal filePath visited1
            else
              match
                (if isSubstrOf baseSuffixStr extVal then
                  findArchBaseFile tree (removeFirst baseSuffixStr extVal)
                else none) with
              | some archFile => recur extVal archFile visited1
              | none =>
                if existsFile tree mainIniPath ∧ filePath ≠ mainIniPath ∧
                    sectionExists (parseIniAt tree mainIniPath) extVal then
                  recur extVal mainIniPath visited1
                else ([], visited1)
          let envPart :=
            if filePath ≠ mainIniPath ∧ existsFile tree mainIniPath ∧
                sectionExists (parseIniAt tree mainIniPath) envWordStr then
              recur envWordStr mainIniPath target.2
            else ([], target.2)
          (flags0 ++ target.1 ++ envPart.1, envPart.2)

/-- All visitable keys of a tree, used to size the default fuel. -/
def keyUniverse (tree : FileTree) : List Str :=
  tree.flatMap (fun pc => (parseIniContent pc.2).map (fun s => mkVisitKey pc.1 s.1))

def defaultFuel (tree : FileTree) : Nat := (keyUniverse tree).length + 1

/-- resolveBuildFlags entry point with a fresh visited set. -/
def resolveBuildFlags (tree : FileTree) (sectionName filePath : Str) : List Str :=
  (resolveBuildFlagsAux tree (defaultFuel tree) sectionName filePath []).1

/-! ## Exclusion extractor (extractExclusionFlags in the source) -/

def isUpperOrUnderscore (c : Char) : Bool :=
  ('A' ≤ c && c ≤ 'Z') || c = '_'

def meshtasticExcludeStr : Str := "MESHTASTIC_EXCLUDE_".toList

/-- Attempt to match the exclusion-define regex of the source at the
start of a string: the define switch, optional whitespace, the literal
MESHTASTIC_EXCLUDE_ marker, a nonempty run of capital letters and
underscores, then optionally an equals sign with a nonempty digit run.
Returns the captured symbol and the optional captured value. -/
def matchExclAt (s : Str) : Option (Str × Option Str) :=
  match s with
  | '-' :: 'D' :: rest =>
    let rest1 := rest.dropWhile isWsChar
    match stripLeading meshtasticExcludeStr rest1 with
    | none => none
    | some rest2 =>
      let sym := rest2.takeWhile isUpperOrUnderscore
      if sym = [] then none
      else
        match rest2.drop sym.length with
        | '=' :: rest4 =>
          let digits := rest4.takeWhile Char.isDigit
          if digits = [] then some (sym, none) else some (sym, some digits)
        | _ => some (sym, none)
  | _ => none

/-- JavaScript String.prototype.match with the non-global exclusion
regex: leftmost match wins. -/
def jsExclusionSearch : Str → Option (Str × Option Str)
  | [] => none
  | c :: rest =>
    match matchExclAt (c :: rest) with
    | some r => some r
    | none => jsExclusionSearch rest

/-- JavaScript Set.add: append if not already a member. -/
def addUnique (acc : List Str) (x : Str) : List Str :=
  if x ∈ acc then acc else acc ++ [x]

/-- One loop iteration of extractExclusionFlags: the symbol is kept only
when the captured value is absent (implicitly the string 1) or literally
the string 1. -/
def extractStep (acc : List Str) (flag : Str) : List Str :=
  match jsExclusionSearch flag with
  | some (sym, v) => if v.getD ['1'] = ['1'] then addUnique acc sym else acc
  | none => acc

/-- extractExclusionFlags of the source.  The result models the
JavaScript Set in insertion order. -/
def extractExclusionFlags (buildFlags : List Str) : List Str :=
  buildFlags.foldl extractStep []

/-! ## Config key mapper (mapExclusionToConfigKey in the source) -/

/-- The camel-casing loop of the source over the tail segments.  A tail
segment that is empty makes the source dereference the first character of
an empty string and call toUpperCase on undefined, which throws a
TypeError; that is modelled by none. -/
def camelTail (acc : Str) : List Str → Option Str
  | [] => some acc
  | [] :: _ => none
  | (c :: cs) :: rest => camelTail (acc ++ c.toUpper :: cs) rest

/-- Lower-case the symbol, split on underscores, camel-case. -/
def camelOf (s : Str) : Option Str :=
  match splitOnChar '_' (s.map Char.toLower) with
  | [] => some []
  | p0 :: rest => camelTail p0 rest

/-- The fixed override table of the source, camel-cased symbol to config
key. -/
def exclusionMapping : List (Str × Str) :=
  [("wifi", "excludeWifi"), ("bluetooth", "excludeBluetooth"),
   ("gps", "excludeGps"), ("screen", "excludeScreen"),
   ("mqtt", "excludeMqtt"), ("powermon", "excludePowermon"),
   ("i2c", "excludeI2c"), ("pki", "excludePki"),
   ("powerfsm", "excludePowerFsm"), ("tz", "excludeTz"),
   ("audio", "excludeAudio"), ("detectionsensor", "excludeDetectionSensor"),
   ("environmentalsensor", "excludeEnvironmentalSensor"),
   ("healthtelemetry", "excludeHealthTelemetry"),
   ("externalnotification", "excludeExternalNotification"),
   ("paxcounter", "excludePaxcounter"),
   ("powertelemetry", "excludePowerTelemetry"),
   ("rangetest", "excludeRangetest"),
   ("remotehardware", "excludeRemoteHardware"),
   ("storeforward", "excludeStoreforward"),
   ("textmessage", "excludeTextmessage"), ("atak", "excludeAtak"),
   ("cannedmessages", "excludeCannedmessages"),
   ("neighborinfo", "excludeNeighborinfo"),
   ("traceroute", "excludeTraceroute"), ("waypoint", "excludeWaypoint"),
   ("inputbroker", "excludeInputbroker"), ("serial", "excludeSerial"),
   ("powerstress", "excludePowerStress"), ("admin", "excludeAdmin"),
   ("webserver", "excludeWifi")].map
    (fun p => (p.1.toList, p.2.toList))

def envSensorExternalStr : Str := "ENVIRONMENTAL_SENSOR_EXTERNAL".toList

/-- mapExclusionToConfigKey of the source.  The outer Option models a
thrown TypeError (none); the inner Option models the null result for an
unknown symbol.  The camel-case conversion runs first and can throw;
only then is the special-substring check and the table consulted. -/
def mapExclusionToConfigKey (exclusionFlag : Str) : Option (Option Str) :=
  match camelOf exclusionFlag with
  | none => none
  | some camel =>
    if isSubstrOf envSensorExternalStr exclusionFlag then
      some (some "excludeEnvironmentalSensor".toList)
    else some (lookupAssoc exclusionMapping camel)

/-! ## Source-filter exclusions and the defaults entry point -/

/-- checkSrcFilterExclusions of the source. -/
def checkSrcFilterExclusions (tree : FileTree) (filePath sectionName : Str) :
    List Str :=
  match lookupAssoc (parseIniAt tree filePath) sectionName with
  | none => []
  | some sec =>
    let srcFilter := (lookupAssoc sec.data srcFilterKey).getD []
    let acc : List Str := []
    let acc :=
      if isSubstrOf "-<mesh/wifi/>".toList srcFilter then acc ++ ["WIFI".toList]
      else acc
    let acc :=
      if isSubstrOf "-<nimble/>".toList srcFilter ||
          isSubstrOf "-<mesh/ble/>".toList srcFilter then
        acc ++ ["BLUETOOTH".toList]
      else acc
    acc

/-- The result record of getEnvironmentConfigDefaults. -/
structure EnvironmentConfigDefaults where
  config : List (Str × Bool)
  hardExclusions : List Str
deriving Repr, DecidableEq

/-- The forEach loop mapping exclusion symbols to config keys.  A thrown
TypeError anywhere aborts the loop (none); a null mapping is skipped; a
key is recorded in the config mapping and pushed onto hardExclusions. -/
def mapExclusions : List Str → List (Str × Bool) → List Str →
    Option (List (Str × Bool) × List Str)
  | [], config, hard => some (config, hard)
  | sym :: rest, config, hard =>
    match mapExclusionToConfigKey sym with
    | none => none
    | some none => mapExclusions rest config hard
    | some (some key) => mapExclusions rest (setAssoc config key true) (hard ++ [key])

/-- getEnvironmentConfigDefaults of the source.  The firmware directory
is the modelled tree; a missing environment yields the empty result, and
a TypeError thrown inside the mapping loop is caught by the surrounding
try block, also yielding the empty result. -/
def getEnvironmentConfigDefaults (tree : FileTree) (envName : Str) :
    EnvironmentConfigDefaults :=
  match findEnvironmentFile tree envName with
  | none => ⟨[], []⟩
  | some envFile =>
    let allFlags := resolveBuildFlags tree (envColonStr ++ envName) envFile
    let exclusionFlags := extractExclusionFlags allFlags
    let exclusionFlags :=
      if sectionExists (parseIniAt tree envFile) (envColonStr ++ envName) then
        (checkSrcFilterExclusions tree envFile (envColonStr ++ envName)).foldl
          addUnique exclusionFlags
      else exclusionFlags
    match mapExclusions exclusionFlags [] [] with
    | none => ⟨[], []⟩
    | some (config, hard) => ⟨config, hard⟩

/-! ## Concrete inputs used by the claims -/

/-- Key-value data of a named section of parsed content. -/
def dataOf (content : Str) (sectionName : Str) : Option (List (Str × Str)) :=
  (lookupAssoc (parseIniContent content) sectionName).map (fun s => s.data)

/-- A section header followed by an empty build_flags key line and two
indented continuation lines. -/
def contC6 (sName : Str) : Str :=
  '[' :: sName ++ (']' :: "\nbuild_flags=\n -DA\n -DB".toList)

/-- Root file whose sections a and b mutually extend each other. -/
def cycTree : FileTree :=
  [(mainIniPath,
    "[a]\nextends = b\nbuild_flags = -DA\n[b]\nextends = a\nbuild_flags = -DB".toList)]

/-- A variant-file path distinct from the root file. -/
def variantPath : Str :=
  joinPath (joinPath firmwareDir "variants".toList) "platformio.ini".toList

/-- Root file with a generic env section, variant file whose environment
extends an unresolvable bare base name. -/
def treeC2 : FileTree :=
  [(mainIniPath, "[env]\nbuild_flags = -DROOT\n".toList),
   (variantPath, "[env:v]\nextends = mystery_base\nbuild_flags = -DOWN\n".toList)]

/-- Root file whose environment writes the exclusion define with a space
between the define switch and the symbol. -/
def treeSpace : FileTree :=
  [(mainIniPath, "[env:v]\nbuild_flags = -D MESHTASTIC_EXCLUDE_WIFI\n".toList)]

/-- Same environment with the space-less spelling. -/
def treeNoSpace : FileTree :=
  [(mainIniPath, "[env:v]\nbuild_flags = -DMESHTASTIC_EXCLUDE_WIFI\n".toList)]

/-- Root file whose environment excludes both WIFI and WEBSERVER, two
symbols that map onto the same config key. -/
def treeC10 : FileTree :=
  [(mainIniPath,
    "[env:x]\nbuild_flags = -DMESHTASTIC_EXCLUDE_WIFI -DMESHTASTIC_EXCLUDE_WEBSERVER\n".toList)]

/-- Fuel that suffices from a given visited set: one more than the number
of yet-unvisited visitable keys. -/
def fuelBound (tree : FileTree) (visited : List Str) : Nat :=
  ((keyUniverse tree).filter (fun k => k ∉ visited)).length + 1

/-- The parsed env:v section of the variant file of treeC2. -/
def secC2 : PIniSection :=
  ⟨"env:v".toList,
   [("extends".toList, "mystery_base".toList),
    ("build_flags".toList, "-DOWN".toList)],
   "[env:v]\nextends = mystery_base\nbuild_flags = -DOWN\n\n".toList⟩

/-! ## Association list lemmas -/

theorem lookupAssoc_setAssoc {α : Type} (m : List (Str × α)) (k : Str) (v : α)
    (k' : Str) :
    lookupAssoc (setAssoc m k v) k' =
      if k = k' then some v else lookupAssoc m k' := by
  induction m with
  | nil => by_cases h : k = k' <;> simp [setAssoc, lookupAssoc, h]
  | cons p rest ih =>
    obtain ⟨pk, pv⟩ := p
    by_cases hpk : pk = k
    · subst hpk
      by_cases h : pk = k' <;> simp [setAssoc, lookupAssoc, h]
    · by_cases h : pk = k'
      · subst h
        have hk : ¬ k = pk := fun e => hpk e.symm
        simp [setAssoc, lookupAssoc, hpk, hk]
      · simp [setAssoc, lookupAssoc, hpk, h, ih]

theorem mem_setAssoc {α : Type} {m : List (Str × α)} {k : Str} {v : α}
    {p : Str × α} (h : p ∈ setAssoc m k v) : p = (k, v) ∨ p ∈ m := by
  induction m with
  | nil => simpa [setAssoc] using h
  | cons q rest ih =>
    obtain ⟨qk, qv⟩ := q
    by_cases hq : qk = k
    · subst hq
      have hs : setAssoc ((qk, qv) :: rest) qk v = (qk, v) :: rest := by
        simp [setAssoc]
      rw [hs] at h
      rcases List.mem_cons.1 h with h | h
      · exact Or.inl h
      · exact Or.inr (List.mem_cons_of_mem _ h)
    · have hs : setAssoc ((qk, qv) :: rest) k v = (qk, qv) :: setAssoc rest k v := by
        simp [setAssoc, hq]
      rw [hs] at h
      rcases List.mem_cons.1 h with h | h
      · exact Or.inr (h ▸ List.mem_cons_self _ _)
      · rcases ih h with h' | h'
        · exact Or.inl h'
        · exact Or.inr (List.mem_cons_of_mem _ h')

theorem keys_setAssoc_nodup {α : Type} {m : List (Str × α)} (k : Str) (v : α)
    (h : (m.map Prod.fst).Nodup) :
    ((setAssoc m k v).map Prod.fst).Nodup := by
  induction m with
  | nil => simp [setAssoc]
  | cons q rest ih =>
    obtain ⟨qk, qv⟩ := q
    simp only [List.map_cons, List.nodup_cons] at h
    by_cases hq : qk = k
    · subst hq
      have hs : setAssoc ((qk, qv) :: rest) qk v = (qk, v) :: rest := by
        simp [setAssoc]
      rw [hs]
      simp only [List.map_cons, List.nodup_cons]
      exact h
    · have hs : setAssoc ((qk, qv) :: rest) k v = (qk, qv) :: setAssoc rest k v := by
        simp [setAssoc, hq]
      rw [hs]
      simp only [List.map_cons, List.nodup_cons]
      refine ⟨fun hm => ?_, ih h.2⟩
      rcases List.mem_map.1 hm with ⟨p, hp, hfst⟩
      rcases mem_setAssoc hp with h' | h'
      · rw [h'] at hfst
        have hk : k = qk := by simpa using hfst
        exact hq hk.symm
      · exact h.1 (List.mem_map.2 ⟨p, h', hfst⟩)

theorem lookupAssoc_of_mem_nodup {α : Type} {m : List (Str × α)}
    {p : Str × α} (hn : (m.map Prod.fst).Nodup) (hp : p ∈ m) :
    lookupAssoc m p.1 = some p.2 := by
  induction m with
  | nil => cases hp
  | cons q rest ih =>
    obtain ⟨qk, qv⟩ := q
    simp only [List.map_cons, List.nodup_cons] at hn
    rcases List.mem_cons.1 hp with h | h
    · subst h
      simp [lookupAssoc]
    · have hne : qk ≠ p.1 := by
        intro e
        exact hn.1 (List.mem_map.2 ⟨p, h, e.symm⟩)
      simp [lookupAssoc, hne, ih hn.2 h]

/-! ## Claim theorems -/

/-- Claim C5 (code bug in the source): the claim says comment lines and
key-less lines never alter the key-value map, and comment lines indeed do
not (third conjunct), but a key-less line flushes the pending key without
clearing it, so at end of input the key is re-flushed with the now-empty
value parts: parsing a section k=a followed by a key-less line x maps k
to the empty string instead of a, and a continuation line after a
key-less line restarts the value instead of extending it. -/
theorem claim_C5 :
    dataOf "[s]\nk=a\nx".toList "s".toList = some [("k".toList, [])]
    ∧ dataOf "[s]\nk=a".toList "s".toList = some [("k".toList, "a".toList)]
    ∧ dataOf "[s]\nk=a\n;c\n b".toList "s".toList =
        some [("k".toList, "a b".toList)]
    ∧ dataOf "[s]\nk=a\nx\n b".toList "s".toList =
        some [("k".toList, "b".toList)] := by
  refine ⟨?_, ?_, ?_, ?_⟩ <;> decide

/-- Claim C9: the config key mapper is not total over the symbols the
extractor can capture.  The symbols WIFI__EXT and WIFI_ both match the
capital-letters-and-underscores capture pattern (first and last
conjuncts show the extractor capturing and keeping such a symbol), yet
the camel-case conversion dereferences the first character of an empty
underscore segment; the resulting thrown TypeError is modelled by the
none result of mapExclusionToConfigKey. -/
theorem claim_C9 :
    jsExclusionSearch "-DMESHTASTIC_EXCLUDE_WIFI__EXT".toList =
      some ("WIFI__EXT".toList, none)
    ∧ mapExclusionToConfigKey "WIFI__EXT".toList = none
    ∧ mapExclusionToConfigKey "WIFI_".toList = none
    ∧ extractExclusionFlags ["-DMESHTASTIC_EXCLUDE_WIFI__EXT".toList] =
        ["WIFI__EXT".toList] := by
  refine ⟨?_, ?_, ?_, ?_⟩ <;> decide

theorem mem_addUnique {acc : List Str} {x sym : Str} :
    sym ∈ addUnique acc x ↔ sym ∈ acc ∨ sym = x := by
  unfold addUnique
  by_cases h : x ∈ acc
  · simp only [if_pos h]
    constructor
    · exact Or.inl
    · rintro (hs | rfl)
      · exact hs
      · exact h
  · simp [if_neg h]

theorem mem_extractStep {acc : List Str} {flag sym : Str} :
    sym ∈ extractStep acc flag ↔
      sym ∈ acc ∨
        ∃ v, jsExclusionSearch flag = some (sym, v) ∧ v.getD ['1'] = ['1'] := by
  unfold extractStep
  cases h : jsExclusionSearch flag with
  | none => simp [h]
  | some r =>
    obtain ⟨s, v⟩ := r
    by_cases hv : v.getD ['1'] = ['1']
    · simp only [if_pos hv, mem_addUnique, h]
      constructor
      · rintro (hs | rfl)
        · exact Or.inl hs
        · exact Or.inr ⟨v, rfl, hv⟩
      · rintro (hs | ⟨v', hev, _⟩)
        · exact Or.inl hs
        · cases hev
          exact Or.inr rfl
    · simp only [if_neg hv, h]
      constructor
      · exact Or.inl
      · rintro (hs | ⟨v', hev, hv'⟩)
        · exact hs
        · cases hev
          exact absurd hv' hv

theorem mem_extract_foldl (flags : List Str) :
    ∀ (acc : List Str) (sym : Str),
      sym ∈ flags.foldl extractStep acc ↔
        sym ∈ acc ∨
          ∃ flag ∈ flags, ∃ v,
            jsExclusionSearch flag = some (sym, v) ∧ v.getD ['1'] = ['1'] := by
  induction flags with
  | nil => simp
  | cons f rest ih =>
    intro acc sym
    simp only [List.foldl_cons, ih, mem_extractStep, List.mem_cons]
    constructor
    · rintro ((hs | hf) | hr)
      · exact Or.inl hs
      · exact Or.inr ⟨f, Or.inl rfl, hf⟩
      · obtain ⟨flag, hm, hc⟩ := hr
        exact Or.inr ⟨flag, Or.inr hm, hc⟩
    · rintro (hs | ⟨flag, hm | hm, hc⟩)
      · exact Or.inl (Or.inl hs)
      · exact Or.inl (Or.inr (hm ▸ hc))
      · exact Or.inr ⟨flag, hm, hc⟩

/-- Claim C3: an exclusion symbol is in the extracted set exactly when
some flag of the list matches the exclusion-define pattern capturing that
symbol with either no captured value (implicitly 1) or the captured
value 1; in particular the plain WIFI define yields the WIFI exclusion
and the value-0 define yields nothing. -/
theorem claim_C3 :
    (∀ (flags : List Str) (sym : Str),
      sym ∈ extractExclusionFlags flags ↔
        ∃ flag ∈ flags, ∃ v,
          jsExclusionSearch flag = some (sym, v) ∧ v.getD ['1'] = ['1'])
    ∧ extractExclusionFlags ["-DMESHTASTIC_EXCLUDE_WIFI".toList] = ["WIFI".toList]
    ∧ extractExclusionFlags ["-DMESHTASTIC_EXCLUDE_WIFI=0".toList] = [] := by
  refine ⟨fun flags sym => ?_, by decide, by decide⟩
  unfold extractExclusionFlags
  rw [mem_extract_foldl]
  simp

/-- Claim C7 counterexample: a section whose build_flags writes the
exclusion define with a space between the define switch and the symbol
yields no WIFI exclusion through resolution followed by extraction,
while the space-less spelling does yield it — the two spellings are not
equivalent through the pipeline. -/
theorem claim_C7_cx :
    "WIFI".toList ∉
      extractExclusionFlags (resolveBuildFlags treeSpace "env:v".toList mainIniPath)
    ∧ "WIFI".toList ∈
      extractExclusionFlags (resolveBuildFlags treeNoSpace "env:v".toList mainIniPath) := by
  refine ⟨?_, ?_⟩ <;> decide

/-- Claim C7 as amended: resolution splits build_flags on whitespace, so
the space spelling reaches the extractor as two separate tokens and
yields no exclusion at all, unlike the space-less spelling which yields
WIFI; the extractor itself, applied to the flag text before whitespace
splitting, does treat the two spellings alike. -/
theorem claim_C7 :
    extractExclusionFlags (resolveBuildFlags treeSpace "env:v".toList mainIniPath) = []
    ∧ extractExclusionFlags (resolveBuildFlags treeNoSpace "env:v".toList mainIniPath) =
        ["WIFI".toList]
    ∧ extractExclusionFlags ["-D MESHTASTIC_EXCLUDE_WIFI".toList] = ["WIFI".toList]
    ∧ jsExclusionSearch "-D MESHTASTIC_EXCLUDE_WIFI".toList =
        some ("WIFI".toList, none) := by
  refine ⟨?_, ?_, ?_, ?_⟩ <;> decide

/-- Claim C8 counterexample: a symbol that contains the compound
substring but has a trailing underscore makes the camel-case conversion
throw (modelled by none) before the substring check is reached, so it
does not map to the environmental-sensor key. -/
theorem claim_C8_cx :
    isSubstrOf envSensorExternalStr "ENVIRONMENTAL_SENSOR_EXTERNAL_".toList = true
    ∧ mapExclusionToConfigKey "ENVIRONMENTAL_SENSOR_EXTERNAL_".toList = none
    ∧ mapExclusionToConfigKey "ENVIRONMENTAL_SENSOR_EXTERNAL_".toList ≠
        some (some "excludeEnvironmentalSensor".toList) := by
  refine ⟨?_, ?_, ?_⟩ <;> decide

/-- Claim C8 as amended: the mapper is a pure function; WIFI maps to the
wifi-exclusion key and WEBSERVER maps to that same key; a symbol
containing the compound environmental-sensor substring maps to the
dedicated environmental-sensor key regardless of its camel-cased form
provided the camel-case conversion does not throw (all underscore
segments after the first nonempty); an unknown symbol maps to null. -/
theorem claim_C8 :
    mapExclusionToConfigKey "WIFI".toList = some (some "excludeWifi".toList)
    ∧ mapExclusionToConfigKey "WEBSERVER".toList =
        mapExclusionToConfigKey "WIFI".toList
    ∧ (∀ s : Str, isSubstrOf envSensorExternalStr s = true →
        (camelOf s).isSome = true →
        mapExclusionToConfigKey s = some (some "excludeEnvironmentalSensor".toList))
    ∧ mapExclusionToConfigKey "ZZZNOTREAL".toList = some none := by
  refine ⟨by decide, by decide, fun s hsub hcam => ?_, by decide⟩
  unfold mapExclusionToConfigKey
  cases hc : camelOf s with
  | none => rw [hc] at hcam; cases hcam
  | some camel => simp [hsub]

theorem claim_C8_witness :
    (isSubstrOf envSensorExternalStr "ENVIRONMENTAL_SENSOR_EXTERNAL".toList = true
      ∧ (camelOf "ENVIRONMENTAL_SENSOR_EXTERNAL".toList).isSome = true)
    ∧ mapExclusionToConfigKey "ENVIRONMENTAL_SENSOR_EXTERNAL".toList =
        some (some "excludeEnvironmentalSensor".toList) :=
  ⟨⟨by decide, by decide⟩, claim_C8.2.2.1 _ (by decide) (by decide)⟩

theorem lookupAssoc_mem {α : Type} {m : List (Str × α)} {k : Str} {v : α}
    (h : lookupAssoc m k = some v) : (k, v) ∈ m := by
  induction m with
  | nil => cases h
  | cons q rest ih =>
    obtain ⟨qk, qv⟩ := q
    by_cases hq : qk = k
    · subst hq
      have hv : qv = v := by
        have hs : some qv = some v := by simpa [lookupAssoc] using h
        exact Option.some.inj hs
      subst hv
      exact List.mem_cons_self _ _
    · simp only [lookupAssoc, if_neg hq] at h
      exact List.mem_cons_of_mem _ (ih h)

theorem findEnvironmentFile_eq_none {tree : FileTree} {envName : Str}
    (h : ∀ p c, (p, c) ∈ tree →
      sectionExists (parseIniContent c) (envColonStr ++ envName) = false) :
    findEnvironmentFile tree envName = none := by
  unfold findEnvironmentFile
  rw [List.find?_eq_none]
  intro p hp
  unfold parseIniAt
  cases hl : lookupAssoc tree p with
  | none => simp [sectionExists, lookupAssoc]
  | some c =>
    have := h p c (lookupAssoc_mem hl)
    simp [this]

/-- Claim C4: when the named environment is defined in no file of the
tree, getEnvironmentConfigDefaults returns the empty config mapping and
the empty hardExclusions list rather than failing (in the embedding the
function is total, so input-shape problems cannot raise at all; the
missing-environment branch is the one proved here). -/
theorem claim_C4 (tree : FileTree) (envName : Str)
    (h : ∀ p c, (p, c) ∈ tree →
      sectionExists (parseIniContent c) (envColonStr ++ envName) = false) :
    getEnvironmentConfigDefaults tree envName = ⟨[], []⟩ := by
  unfold getEnvironmentConfigDefaults
  rw [findEnvironmentFile_eq_none h]

theorem claim_C4_witness :
    (∀ p c, (p, c) ∈ treeC10 →
      sectionExists (parseIniContent c) (envColonStr ++ "nope".toList) = false)
    ∧ getEnvironmentConfigDefaults treeC10 "nope".toList = ⟨[], []⟩ := by
  have h : ∀ p c, (p, c) ∈ treeC10 →
      sectionExists (parseIniContent c) (envColonStr ++ "nope".toList) = false := by
    intro p c hm
    rcases List.mem_cons.1 hm with heq | hnil
    · rw [Prod.mk.injEq] at heq
      obtain ⟨rfl, rfl⟩ := heq
      decide
    · cases hnil
  exact ⟨h, claim_C4 treeC10 "nope".toList h⟩

theorem mapExclusions_inv (syms : List Str) :
    ∀ (config : List (Str × Bool)) (hard : List Str)
      (c : List (Str × Bool)) (h : List Str),
      mapExclusions syms config hard = some (c, h) →
      ((∀ k, k ∈ hard → lookupAssoc config k = some true) ∧
        (∀ p, p ∈ config → p.2 = true ∧ p.1 ∈ hard) ∧
        (config.map Prod.fst).Nodup) →
      ((∀ k, k ∈ h → lookupAssoc c k = some true) ∧
        (∀ p, p ∈ c → p.2 = true ∧ p.1 ∈ h) ∧
        (c.map Prod.fst).Nodup) := by
  induction syms with
  | nil =>
    intro config hard c h he hinv
    simp only [mapExclusions, Option.some.injEq, Prod.mk.injEq] at he
    obtain ⟨rfl, rfl⟩ := he
    exact hinv
  | cons sym rest ih =>
    intro config hard c h he hinv
    obtain ⟨h1, h2, h3⟩ := hinv
    unfold mapExclusions at he
    cases hm : mapExclusionToConfigKey sym with
    | none => rw [hm] at he; cases he
    | some keyOpt =>
      rw [hm] at he
      cases keyOpt with
      | none => exact ih config hard c h he ⟨h1, h2, h3⟩
      | some key =>
        refine ih (setAssoc config key true) (hard ++ [key]) c h he ⟨?_, ?_, ?_⟩
        · intro k hk
          rw [lookupAssoc_setAssoc]
          by_cases hkk : key = k
          · simp [hkk]
          · rcases List.mem_append.1 hk with hk' | hk'
            · simp [hkk, h1 k hk']
            · exact absurd (List.mem_singleton.1 hk').symm hkk
        · intro p hp
          rcases mem_setAssoc hp with hp' | hp'
          · subst hp'
            exact ⟨rfl, List.mem_append.2 (Or.inr (List.mem_singleton.2 rfl))⟩
          · obtain ⟨hv, hh⟩ := h2 p hp'
            exact ⟨hv, List.mem_append.2 (Or.inl hh)⟩
        · exact keys_setAssoc_nodup key true h3

theorem getDefaults_coherent (tree : FileTree) (envName : Str) :
    (∀ k, k ∈ (getEnvironmentConfigDefaults tree envName).hardExclusions →
      lookupAssoc (getEnvironmentConfigDefaults tree envName).config k = some true)
    ∧ (∀ p, p ∈ (getEnvironmentConfigDefaults tree envName).config →
      p.2 = true ∧ p.1 ∈ (getEnvironmentConfigDefaults tree envName).hardExclusions) := by
  have base :
      (∀ k, k ∈ ([] : List Str) → lookupAssoc ([] : List (Str × Bool)) k = some true) ∧
        (∀ p, p ∈ ([] : List (Str × Bool)) → p.2 = true ∧ p.1 ∈ ([] : List Str)) ∧
        ((([] : List (Str × Bool))).map Prod.fst).Nodup := by
    refine ⟨fun k hk => absurd hk (List.not_mem_nil k), fun p hp => absurd hp (List.not_mem_nil p), ?_⟩
    simp
  unfold getEnvironmentConfigDefaults
  cases hf : findEnvironmentFile tree envName with
  | none =>
    constructor
    · intro k hk
      exact absurd hk (List.not_mem_nil k)
    · intro p hp
      exact absurd hp (List.not_mem_nil p)
  | some envFile =>
    cases hme : mapExclusions
        (if sectionExists (parseIniAt tree envFile) (envColonStr ++ envName) = true then
          (checkSrcFilterExclusions tree envFile (envColonStr ++ envName)).foldl addUnique
            (extractExclusionFlags (resolveBuildFlags tree (envColonStr ++ envName) envFile))
        else
          extractExclusionFlags (resolveBuildFlags tree (envColonStr ++ envName) envFile))
        [] [] with
    | none =>
      simp only [hme]
      constructor
      · intro k hk
        exact absurd hk (List.not_mem_nil k)
      · intro p hp
        exact absurd hp (List.not_mem_nil p)
    | some ch =>
      obtain ⟨c, h⟩ := ch
      simp only [hme]
      have := mapExclusions_inv _ [] [] c h hme base
      exact ⟨this.1, this.2.1⟩

/-- Claim C10: the config mapping and hardExclusions stay coherent for
every tree and environment name — each hardExclusions entry is a key
mapped to true in config, each config entry is true-valued with its key
in hardExclusions — while hardExclusions is not duplicate-free: when
WIFI and WEBSERVER are both excluded, their shared config key appears
twice in hardExclusions and once in config. -/
theorem claim_C10 :
    (∀ (tree : FileTree) (envName : Str) (k : Str),
      k ∈ (getEnvironmentConfigDefaults tree envName).hardExclusions →
      lookupAssoc (getEnvironmentConfigDefaults tree envName).config k = some true)
    ∧ (∀ (tree : FileTree) (envName : Str) (p : Str × Bool),
      p ∈ (getEnvironmentConfigDefaults tree envName).config →
      p.2 = true ∧ p.1 ∈ (getEnvironmentConfigDefaults tree envName).hardExclusions)
    ∧ (getEnvironmentConfigDefaults treeC10 "x".toList).hardExclusions =
        ["excludeWifi".toList, "excludeWifi".toList]
    ∧ ¬ (getEnvironmentConfigDefaults treeC10 "x".toList).hardExclusions.Nodup
    ∧ (getEnvironmentConfigDefaults treeC10 "x".toList).config =
        [("excludeWifi".toList, true)] := by
  refine ⟨fun tree envName k => (getDefaults_coherent tree envName).1 k,
          fun tree envName p => (getDefaults_coherent tree envName).2 p,
          by decide, by decide, by decide⟩

theorem claim_C10_witness :
    "excludeWifi".toList ∈ (getEnvironmentConfigDefaults treeC10 "x".toList).hardExclusions
    ∧ lookupAssoc (getEnvironmentConfigDefaults treeC10 "x".toList).config
        "excludeWifi".toList = some true :=
  ⟨by decide, claim_C10.1 treeC10 "x".toList "excludeWifi".toList (by decide)⟩

/-! ## Parser lemmas for the continuation-line claim -/

theorem splitOnChar_append_cons {c : Char} {xs : Str} (ys : Str) (h : c ∉ xs) :
    splitOnChar c (xs ++ c :: ys) = xs :: splitOnChar c ys := by
  induction xs with
  | nil => simp [splitOnChar]
  | cons x rest ih =>
    have hx : x ≠ c := fun e => h (e ▸ List.mem_cons_self x rest)
    have hr : c ∉ rest := fun hm => h (List.mem_cons_of_mem _ hm)
    rw [List.cons_append]
    simp only [splitOnChar, if_neg hx]
    rw [ih hr]

theorem trimStr_bracket (m : Str) : trimStr ('[' :: m ++ [']']) = '[' :: m ++ [']'] := by
  unfold trimStr
  have h1 : List.dropWhile isWsChar ('[' :: m ++ [']']) = '[' :: m ++ [']'] := by
    rw [List.cons_append, List.dropWhile_cons]
    simp [isWsChar]
  rw [h1]
  have h2 : ('[' :: m ++ [']']).reverse = ']' :: (m.reverse ++ ['[']) := by
    simp
  rw [h2, List.dropWhile_cons]
  simp only [show isWsChar ']' = false from rfl, Bool.false_eq_true, if_false]
  rw [show (']' :: (m.reverse ++ ['['])) = ('[' :: m ++ [']']).reverse from by simp]
  exact List.reverse_reverse _

theorem matchSectionHeader_bracket {m : Str} (h1 : m ≠ []) (h2 : ']' ∉ m) :
    matchSectionHeader ('[' :: m ++ [']']) = some m := by
  rw [List.cons_append]
  simp only [matchSectionHeader]
  rw [if_pos ⟨trivial, List.getLast?_concat m⟩]
  rw [List.dropLast_concat]
  rw [if_pos ⟨h1, h2⟩]

theorem processLine_header_init {line name : Str}
    (hh : matchSectionHeader (trimStr line) = some name) :
    processLine initParseState line =
      ⟨[], some name, [], line ++ ['\n'], none, []⟩ := by
  simp only [processLine, hh, initParseState]

theorem processLine_keyline (name raw : Str) :
    processLine ⟨[], some name, [], raw, none, []⟩ "build_flags=".toList =
      ⟨[], some name, [], raw ++ "build_flags=\n".toList, some buildFlagsKey, []⟩ := by
  simp only [processLine]
  rw [show matchSectionHeader (trimStr "build_flags=".toList) = none from by decide]
  simp only [show trimStr "build_flags=".toList ≠ [] from by decide,
    show (trimStr "build_flags=".toList).head? ≠ some ';' from by decide,
    show (trimStr "build_flags=".toList).head? ≠ some '#' from by decide,
    ne_eq, not_false_eq_true, and_self, if_true, true_and,
    show ("build_flags=".toList.head? = some ' ' ∨ "build_flags=".toList.head? = some '\t') =
      False from by decide,
    Option.isSome_none, false_and, and_false, if_false,
    show matchKeyValue (trimStr "build_flags=".toList) = some (buildFlagsKey, []) from by decide]
  simp only [List.append_nil, List.append_assoc]
  rw [show "build_flags=".toList ++ ['\n'] = "build_flags=\n".toList from by decide]

theorem processLine_cont {name raw key : Str} {vs : List Str} {line : Str}
    (h1 : matchSectionHeader (trimStr line) = none)
    (h2 : trimStr line ≠ [] ∧ (trimStr line).head? ≠ some ';' ∧
      (trimStr line).head? ≠ some '#')
    (h3 : line.head? = some ' ' ∨ line.head? = some '\t') :
    processLine ⟨[], some name, [], raw, some key, vs⟩ line =
      ⟨[], some name, [], raw ++ line ++ ['\n'], some key, vs ++ [trimStr line]⟩ := by
  simp only [processLine, h1]
  rw [if_pos h2]
  have hcont : ((line.head? = some ' ' ∨ line.head? = some '\t') ∧
      (some key : Option Str).isSome = true) := ⟨h3, rfl⟩
  rw [if_pos hcont]

theorem finalizeParse_c6 (name raw : Str) :
    finalizeParse ⟨[], some name, [], raw, some buildFlagsKey,
        ["-DA".toList, "-DB".toList]⟩ =
      [(name, ⟨name, [(buildFlagsKey, "-DA -DB".toList)], raw⟩)] := by
  simp only [finalizeParse]
  rw [show setAssoc ([] : List (Str × Str)) buildFlagsKey
      (trimStr (joinSpace ["-DA".toList, "-DB".toList])) =
      [(buildFlagsKey, "-DA -DB".toList)] from by decide]
  rfl

/-- Claim C6: for every section name (nonempty, without a closing
bracket or newline), a section consisting of a build_flags key line with
an empty value followed by the indented continuation lines -DA and -DB
parses to a single key build_flags whose value is the space-joined
"-DA -DB". -/
theorem claim_C6 (sName : Str) (h1 : sName ≠ []) (h2 : ']' ∉ sName)
    (h3 : '\n' ∉ sName) :
    dataOf (contC6 sName) sName = some [(buildFlagsKey, "-DA -DB".toList)] := by
  have hsplit : splitOnChar '\n' (contC6 sName) =
      ('[' :: sName ++ [']']) :: ["build_flags=".toList, " -DA".toList, " -DB".toList] := by
    have he : contC6 sName = ('[' :: sName ++ [']']) ++ '\n' :: "build_flags=\n -DA\n -DB".toList := by
      simp [contC6]
    have hnin : '\n' ∉ '[' :: sName ++ [']'] := by
      intro hm
      rcases List.mem_cons.1 hm with he' | hm'
      · cases he'
      · rcases List.mem_append.1 hm' with hm'' | hm''
        · exact h3 hm''
        · exact absurd (List.mem_singleton.1 hm'') (by decide)
    rw [he, splitOnChar_append_cons _ hnin]
    rw [show splitOnChar '\n' "build_flags=\n -DA\n -DB".toList =
      ["build_flags=".toList, " -DA".toList, " -DB".toList] from by decide]
  unfold dataOf parseIniContent
  rw [hsplit]
  simp only [List.foldl_cons, List.foldl_nil]
  rw [processLine_header_init
    (by rw [trimStr_bracket]; exact matchSectionHeader_bracket h1 h2)]
  rw [processLine_keyline]
  rw [processLine_cont (by decide) (by refine ⟨by decide, by decide, by decide⟩) (by decide)]
  rw [processLine_cont (by decide) (by refine ⟨by decide, by decide, by decide⟩) (by decide)]
  rw [show trimStr " -DA".toList = "-DA".toList from by decide,
    show trimStr " -DB".toList = "-DB".toList from by decide]
  rw [show ([] : List Str) ++ ["-DA".toList] = ["-DA".toList] from rfl]
  rw [show ["-DA".toList] ++ ["-DB".toList] = ["-DA".toList, "-DB".toList] from rfl]
  rw [finalizeParse_c6]
  simp [lookupAssoc]

theorem claim_C6_witness :
    ("s".toList ≠ [] ∧ ']' ∉ "s".toList ∧ '\n' ∉ "s".toList)
    ∧ dataOf (contC6 "s".toList) "s".toList =
        some [(buildFlagsKey, "-DA -DB".toList)] :=
  ⟨⟨by decide, by decide, by decide⟩,
    claim_C6 "s".toList (by decide) (by decide) (by decide)⟩

/-! ## Resolver lemmas: cycle guard, visited-set growth, fuel stability -/

theorem resolve_visited_hit (tree : FileTree) (fuel : Nat) (s f : Str)
    (v : List Str) (h : mkVisitKey f s ∈ v) :
    resolveBuildFlagsAux tree fuel s f v = ([], v) := by
  cases fuel with
  | zero => rfl
  | succ fuel => simp only [resolveBuildFlagsAux, if_pos h]

theorem growth_chain {v1 v2 v3 : List Str}
    (h12 : ∃ n, v2 = v1 ++ n ∧ n.Nodup ∧ ∀ k ∈ n, k ∉ v1)
    (h23 : ∃ n, v3 = v2 ++ n ∧ n.Nodup ∧ ∀ k ∈ n, k ∉ v2) :
    ∃ n, v3 = v1 ++ n ∧ n.Nodup ∧ ∀ k ∈ n, k ∉ v1 := by
  obtain ⟨n1, he1, hn1, hf1⟩ := h12
  obtain ⟨n2, he2, hn2, hf2⟩ := h23
  refine ⟨n1 ++ n2, by rw [he2, he1, List.append_assoc], ?_, ?_⟩
  · rw [List.nodup_append]
    refine ⟨hn1, hn2, fun k hk1 hk2 => ?_⟩
    exact hf2 k hk2 (he1 ▸ List.mem_append.2 (Or.inr hk1))
  · intro k hk
    rcases List.mem_append.1 hk with hk' | hk'
    · exact hf1 k hk'
    · exact fun hv => hf2 k hk' (he1 ▸ List.mem_append.2 (Or.inl hv))

theorem resolve_visited_growth (tree : FileTree) (fuel : Nat) :
    ∀ (s f : Str) (v : List Str),
      ∃ new, (resolveBuildFlagsAux tree fuel s f v).2 = v ++ new
        ∧ new.Nodup ∧ ∀ k ∈ new, k ∉ v := by
  induction fuel with
  | zero =>
    intro s f v
    exact ⟨[], by simp [resolveBuildFlagsAux], List.nodup_nil, by simp⟩
  | succ fuel ih =>
    intro s f v
    by_cases hk : mkVisitKey f s ∈ v
    · rw [resolve_visited_hit tree _ s f v hk]
      exact ⟨[], by simp, List.nodup_nil, by simp⟩
    · have hbase : ∃ n, v ++ [mkVisitKey f s] = v ++ n ∧ n.Nodup ∧
          ∀ k ∈ n, k ∉ v :=
        ⟨[mkVisitKey f s], rfl, List.nodup_singleton _, by simpa using hk⟩
      simp only [resolveBuildFlagsAux, if_neg hk]
      cases hsec : lookupAssoc (parseIniAt tree f) s with
      | none => exact hbase
      | some sec =>
        simp only []
        cases hext : lookupAssoc sec.data extendsKey with
        | none => exact hbase
        | some extVal =>
          simp only []
          by_cases he0 : extVal = []
          · simp only [if_pos he0]
            exact hbase
          · simp only [if_neg he0]
            by_cases hpre : startsWithStr extVal envColonStr = true
            · simp only [if_pos hpre]
              by_cases hsx : sectionExists (parseIniAt tree f) extVal = true
              · simp only [if_pos hsx]
                exact growth_chain hbase (ih extVal f (v ++ [mkVisitKey f s]))
              · simp only [if_neg hsx]
                cases hfe : findEnvironmentFile tree (removeFirst envColonStr extVal) with
                | none => exact hbase
                | some envFile =>
                  exact growth_chain hbase (ih extVal envFile (v ++ [mkVisitKey f s]))
            · simp only [if_neg hpre]
              by_cases hsx : sectionExists (parseIniAt tree f) extVal = true
              · simp only [if_pos hsx]
                by_cases hec : f ≠ mainIniPath ∧ existsFile tree mainIniPath = true ∧
                    sectionExists (parseIniAt tree mainIniPath) envWordStr = true
                · simp only [if_pos hec]
                  exact growth_chain
                    (growth_chain hbase (ih extVal f (v ++ [mkVisitKey f s])))
                    (ih envWordStr mainIniPath _)
                · simp only [if_neg hec]
                  exact growth_chain hbase (ih extVal f (v ++ [mkVisitKey f s]))
              · simp only [if_neg hsx]
                cases harch : (if isSubstrOf baseSuffixStr extVal = true then
                    findArchBaseFile tree (removeFirst baseSuffixStr extVal)
                  else none) with
                | some archFile =>
                  by_cases hec : f ≠ mainIniPath ∧ existsFile tree mainIniPath = true ∧
                      sectionExists (parseIniAt tree mainIniPath) envWordStr = true
                  · simp only [if_pos hec]
                    exact growth_chain
                      (growth_chain hbase (ih extVal archFile (v ++ [mkVisitKey f s])))
                      (ih envWordStr mainIniPath _)
                  · simp only [if_neg hec]
                    exact growth_chain hbase (ih extVal archFile (v ++ [mkVisitKey f s]))
                | none =>
                  by_cases hmain : existsFile tree mainIniPath = true ∧ f ≠ mainIniPath ∧
                      sectionExists (parseIniAt tree mainIniPath) extVal = true
                  · simp only [if_pos hmain]
                    by_cases hec : f ≠ mainIniPath ∧ existsFile tree mainIniPath = true ∧
                        sectionExists (parseIniAt tree mainIniPath) envWordStr = true
                    · simp only [if_pos hec]
                      exact growth_chain
                        (growth_chain hbase (ih extVal mainIniPath (v ++ [mkVisitKey f s])))
                        (ih envWordStr mainIniPath _)
                    · simp only [if_neg hec]
                      exact growth_chain hbase (ih extVal mainIniPath (v ++ [mkVisitKey f s]))
                  · simp only [if_neg hmain]
                    by_cases hec : f ≠ mainIniPath ∧ existsFile tree mainIniPath = true ∧
                        sectionExists (parseIniAt tree mainIniPath) envWordStr = true
                    · simp only [if_pos hec]
                      exact growth_chain hbase (ih envWordStr mainIniPath _)
                    · simp only [if_neg hec]
                      exact hbase

theorem resolve_visited_sub (tree : FileTree) (fuel : Nat) (s f : Str)
    (v : List Str) : v ⊆ (resolveBuildFlagsAux tree fuel s f v).2 := by
  obtain ⟨n, he, -, -⟩ := resolve_visited_growth tree fuel s f v
  rw [he]
  exact List.subset_append_left v n

theorem key_mem_universe {tree : FileTree} {f s : Str} {sec : PIniSection}
    (h : lookupAssoc (parseIniAt tree f) s = some sec) :
    mkVisitKey f s ∈ keyUniverse tree := by
  unfold parseIniAt at h
  cases hc : lookupAssoc tree f with
  | none => rw [hc] at h; cases h
  | some c =>
    rw [hc] at h
    have hmem : (f, c) ∈ tree := lookupAssoc_mem hc
    have hs : (s, sec) ∈ parseIniContent c := lookupAssoc_mem h
    unfold keyUniverse
    rw [List.mem_flatMap]
    exact ⟨(f, c), hmem, List.mem_map.2 ⟨(s, sec), hs, rfl⟩⟩

theorem length_filter_mono {α : Type} {l : List α} {p q : α → Bool}
    (hpq : ∀ a, p a = true → q a = true) :
    (l.filter p).length ≤ (l.filter q).length := by
  induction l with
  | nil => simp
  | cons a rest ih =>
    cases hp : p a with
    | true =>
      rw [List.filter_cons_of_pos hp, List.filter_cons_of_pos (hpq a hp)]
      simpa using ih
    | false =>
      rw [List.filter_cons_of_neg (by simp [hp])]
      cases hq : q a with
      | true =>
        rw [List.filter_cons_of_pos hq]
        exact Nat.le_succ_of_le ih
      | false =>
        rw [List.filter_cons_of_neg (by simp [hq])]
        exact ih

theorem length_filter_lt {α : Type} {l : List α} {p q : α → Bool}
    (hpq : ∀ a, p a = true → q a = true) {x : α} (hx : x ∈ l)
    (hpx : p x = false) (hqx : q x = true) :
    (l.filter p).length < (l.filter q).length := by
  induction l with
  | nil => cases hx
  | cons a rest ih =>
    rcases List.mem_cons.1 hx with rfl | hx'
    · rw [List.filter_cons_of_neg (by simp [hpx]), List.filter_cons_of_pos hqx]
      exact Nat.lt_succ_of_le (length_filter_mono hpq)
    · cases hp : p a with
      | true =>
        rw [List.filter_cons_of_pos hp, List.filter_cons_of_pos (hpq a hp)]
        simpa using ih hx'
      | false =>
        rw [List.filter_cons_of_neg (by simp [hp])]
        cases hq : q a with
        | true =>
          rw [List.filter_cons_of_pos hq]
          exact Nat.lt_succ_of_lt (ih hx')
        | false =>
          rw [List.filter_cons_of_neg (by simp [hq])]
          exact ih hx'

theorem fuelBound_decrease {tree : FileTree} {v : List Str} {key : Str}
    (hU : key ∈ keyUniverse tree) (hv : key ∉ v) :
    fuelBound tree (v ++ [key]) < fuelBound tree v := by
  unfold fuelBound
  have h := length_filter_lt
    (l := keyUniverse tree)
    (p := fun k => decide (k ∉ v ++ [key])) (q := fun k => decide (k ∉ v))
    (fun a ha => by
      simp only [decide_eq_true_eq] at ha ⊢
      exact fun hm => ha (List.mem_append.2 (Or.inl hm)))
    hU
    (by simp)
    (by simpa using hv)
  omega

theorem fuelBound_le_of_sub {tree : FileTree} {v w : List Str} (h : v ⊆ w) :
    fuelBound tree w ≤ fuelBound tree v := by
  unfold fuelBound
  have hm := length_filter_mono
    (l := keyUniverse tree)
    (p := fun k => decide (k ∉ w)) (q := fun k => decide (k ∉ v))
    (fun a ha => by
      simp only [decide_eq_true_eq] at ha ⊢
      exact fun hmv => ha (h hmv))
  omega

theorem resolve_eq_step (tree : FileTree) (fuel : Nat) (s f : Str)
    (v : List Str) :
    resolveBuildFlagsAux tree (fuel + 1) s f v =
      resolveStep tree (resolveBuildFlagsAux tree fuel) s f v := rfl

theorem resolveStep_congr (tree : FileTree)
    (r1 r2 : Str → Str → List Str → List Str × List Str) (s f : Str)
    (v : List Str)
    (hmono : ∀ s' f' w, w ⊆ (r1 s' f' w).2)
    (h : ∀ s' f' w, v ++ [mkVisitKey f s] ⊆ w → mkVisitKey f s ∉ v →
      (∃ sec, lookupAssoc (parseIniAt tree f) s = some sec) →
      r1 s' f' w = r2 s' f' w) :
    resolveStep tree r1 s f v = resolveStep tree r2 s f v := by
  by_cases hk : mkVisitKey f s ∈ v
  · simp only [resolveStep, if_pos hk]
  · simp only [resolveStep, if_neg hk]
    cases hsec : lookupAssoc (parseIniAt tree f) s with
    | none => rfl
    | some sec =>
      simp only []
      have hex : ∃ s', lookupAssoc (parseIniAt tree f) s = some s' := ⟨sec, hsec⟩
      have hv1 : v ++ [mkVisitKey f s] ⊆ v ++ [mkVisitKey f s] := List.Subset.refl _
      cases hext : lookupAssoc sec.data extendsKey with
      | none => rfl
      | some extVal =>
        simp only []
        by_cases he0 : extVal = []
        · simp only [if_pos he0]
        · simp only [if_neg he0]
          by_cases hpre : startsWithStr extVal envColonStr = true
          · simp only [if_pos hpre]
            by_cases hsx : sectionExists (parseIniAt tree f) extVal = true
            · simp only [if_pos hsx]
              rw [h extVal f _ hv1 hk hex]
            · simp only [if_neg hsx]
              cases hfe : findEnvironmentFile tree (removeFirst envColonStr extVal) with
              | none => rfl
              | some envFile =>
                simp only []
                rw [h extVal envFile _ hv1 hk hex]
          · simp only [if_neg hpre]
            by_cases hsx : sectionExists (parseIniAt tree f) extVal = true
            · simp only [if_pos hsx]
              by_cases hec : f ≠ mainIniPath ∧ existsFile tree mainIniPath = true ∧
                  sectionExists (parseIniAt tree mainIniPath) envWordStr = true
              · simp only [if_pos hec]
                rw [h envWordStr mainIniPath ((r1 extVal f (v ++ [mkVisitKey f s])).2)
                  (List.Subset.trans hv1 (hmono extVal f _)) hk hex]
                rw [h extVal f _ hv1 hk hex]
              · simp only [if_neg hec]
                rw [h extVal f _ hv1 hk hex]
            · simp only [if_neg hsx]
              cases harch : (if isSubstrOf baseSuffixStr extVal = true then
                  findArchBaseFile tree (removeFirst baseSuffixStr extVal)
                else none) with
              | some archFile =>
                simp only []
                by_cases hec : f ≠ mainIniPath ∧ existsFile tree mainIniPath = true ∧
                    sectionExists (parseIniAt tree mainIniPath) envWordStr = true
                · simp only [if_pos hec]
                  rw [h envWordStr mainIniPath ((r1 extVal archFile (v ++ [mkVisitKey f s])).2)
                    (List.Subset.trans hv1 (hmono extVal archFile _)) hk hex]
                  rw [h extVal archFile _ hv1 hk hex]
                · simp only [if_neg hec]
                  rw [h extVal archFile _ hv1 hk hex]
              | none =>
                simp only []
                by_cases hmain : existsFile tree mainIniPath = true ∧ f ≠ mainIniPath ∧
                    sectionExists (parseIniAt tree mainIniPath) extVal = true
                · simp only [if_pos hmain]
                  by_cases hec : f ≠ mainIniPath ∧ existsFile tree mainIniPath = true ∧
                      sectionExists (parseIniAt tree mainIniPath) envWordStr = true
                  · simp only [if_pos hec]
                    rw [h envWordStr mainIniPath ((r1 extVal mainIniPath (v ++ [mkVisitKey f s])).2)
                      (List.Subset.trans hv1 (hmono extVal mainIniPath _)) hk hex]
                    rw [h extVal mainIniPath _ hv1 hk hex]
                  · simp only [if_neg hec]
                    rw [h extVal mainIniPath _ hv1 hk hex]
                · simp only [if_neg hmain]
                  by_cases hec : f ≠ mainIniPath ∧ existsFile tree mainIniPath = true ∧
                      sectionExists (parseIniAt tree mainIniPath) envWordStr = true
                  · simp only [if_pos hec]
                    rw [h envWordStr mainIniPath (v ++ [mkVisitKey f s]) hv1 hk hex]
                  · simp only [if_neg hec]

theorem resolve_succ_stable (tree : FileTree) :
    ∀ (m : Nat) (s f : Str) (v : List Str), fuelBound tree v ≤ m →
      resolveBuildFlagsAux tree (m + 1) s f v = resolveBuildFlagsAux tree m s f v := by
  intro m
  induction m using Nat.strong_induction_on with
  | _ m ih =>
    intro s f v hm
    have hb1 : 1 ≤ fuelBound tree v := Nat.le_add_left 1 _
    cases m with
    | zero => omega
    | succ m =>
      rw [resolve_eq_step tree (m + 1) s f v, resolve_eq_step tree m s f v]
      refine resolveStep_congr tree _ _ s f v
        (fun s' f' w => resolve_visited_sub tree (m + 1) s' f' w)
        (fun s' f' w hw hk hex => ?_)
      obtain ⟨sec, hsec⟩ := hex
      have hkey : mkVisitKey f s ∈ keyUniverse tree := key_mem_universe hsec
      have hdec : fuelBound tree (v ++ [mkVisitKey f s]) < fuelBound tree v :=
        fuelBound_decrease hkey hk
      have hwb : fuelBound tree w ≤ m :=
        le_trans (fuelBound_le_of_sub hw) (by omega)
      exact ih m (Nat.lt_succ_self m) s' f' w hwb

theorem resolve_fuel_stable (tree : FileTree) (m n : Nat) (s f : Str)
    (v : List Str) (hmb : fuelBound tree v ≤ m) (hnb : fuelBound tree v ≤ n) :
    resolveBuildFlagsAux tree m s f v = resolveBuildFlagsAux tree n s f v := by
  have hgen : ∀ (d b : Nat), fuelBound tree v ≤ b →
      resolveBuildFlagsAux tree (b + d) s f v = resolveBuildFlagsAux tree b s f v := by
    intro d
    induction d with
    | zero => intro b _; rfl
    | succ d ihd =>
      intro b hb
      have h1 : b + (d + 1) = (b + d) + 1 := by omega
      rw [h1, resolve_succ_stable tree (b + d) s f v (le_trans hb (Nat.le_add_right b d))]
      exact ihd b hb
  have hme : m = fuelBound tree v + (m - fuelBound tree v) := by omega
  have hne : n = fuelBound tree v + (n - fuelBound tree v) := by omega
  rw [hme, hgen (m - fuelBound tree v) (fuelBound tree v) (le_refl _),
    hne, hgen (n - fuelBound tree v) (fuelBound tree v) (le_refl _)]

/-- Claim C1: the resolver terminates on cyclic inheritance.  First
conjunct: a visited key returns the empty flag list immediately, leaving
the visited set unchanged.  Second conjunct: one resolution pass only
ever appends fresh, duplicate-free keys to the visited set, so each
distinct file-and-section pair is entered — and its flags appended — at
most once per pass.  Third conjunct: the result is independent of the
fuel once the fuel reaches the number of unvisited visitable pairs plus
one, which is the termination of the guarded recursion.  Fourth
conjunct: on a root file whose sections a and b mutually extend each
other, resolution at any sufficient fuel yields the finite flag list
with the flags of a and of b each exactly once. -/
theorem claim_C1 :
    (∀ (tree : FileTree) (fuel : Nat) (s f : Str) (v : List Str),
      mkVisitKey f s ∈ v → resolveBuildFlagsAux tree fuel s f v = ([], v))
    ∧ (∀ (tree : FileTree) (fuel : Nat) (s f : Str) (v : List Str),
      ∃ new, (resolveBuildFlagsAux tree fuel s f v).2 = v ++ new ∧ new.Nodup ∧
        ∀ k ∈ new, k ∉ v)
    ∧ (∀ (tree : FileTree) (m n : Nat) (s f : Str) (v : List Str),
      fuelBound tree v ≤ m → fuelBound tree v ≤ n →
      resolveBuildFlagsAux tree m s f v = resolveBuildFlagsAux tree n s f v)
    ∧ (∀ n : Nat,
      resolveBuildFlagsAux cycTree (n + 3) "a".toList mainIniPath [] =
        (["-DA".toList, "-DB".toList],
         [mkVisitKey mainIniPath "a".toList, mkVisitKey mainIniPath "b".toList])) := by
  refine ⟨resolve_visited_hit,
    fun tree fuel => resolve_visited_growth tree fuel,
    fun tree m n s f v hm hn => resolve_fuel_stable tree m n s f v hm hn,
    fun n => ?_⟩
  have hb : fuelBound cycTree [] = 3 := by decide
  have hstep : resolveBuildFlagsAux cycTree (n + 3) "a".toList mainIniPath [] =
      resolveBuildFlagsAux cycTree 3 "a".toList mainIniPath [] :=
    resolve_fuel_stable cycTree (n + 3) 3 "a".toList mainIniPath []
      (by omega) (by omega)
  rw [hstep]
  decide

theorem claim_C1_witness :
    (mkVisitKey mainIniPath "a".toList ∈ [mkVisitKey mainIniPath "a".toList]
      ∧ resolveBuildFlagsAux cycTree 5 "a".toList mainIniPath
          [mkVisitKey mainIniPath "a".toList] =
        ([], [mkVisitKey mainIniPath "a".toList]))
    ∧ (fuelBound cycTree [] ≤ 7 ∧ fuelBound cycTree [] ≤ 3
      ∧ resolveBuildFlagsAux cycTree 7 "a".toList mainIniPath [] =
          resolveBuildFlagsAux cycTree 3 "a".toList mainIniPath []) :=
  ⟨⟨by decide, claim_C1.1 cycTree 5 "a".toList mainIniPath _ (by decide)⟩,
   ⟨by decide, by decide,
    claim_C1.2.2.1 cycTree 7 3 "a".toList mainIniPath [] (by decide) (by decide)⟩⟩

/-- Claim C2: when a section of a non-root file declares a bare (not
env-prefixed) extends value, the resolver appends, after its own flags
and whatever the explicit extends target contributed, the flags obtained
by resolving the root file env section — and it does so whether or not
the explicit extends target was resolved, since no hypothesis below
constrains the target lookup. -/
theorem claim_C2 (tree : FileTree) (fuel : Nat) (s f : Str) (v : List Str)
    (sec : PIniSection) (extVal : Str)
    (hk : mkVisitKey f s ∉ v)
    (hsec : lookupAssoc (parseIniAt tree f) s = some sec)
    (hext : lookupAssoc sec.data extendsKey = some extVal)
    (he0 : extVal ≠ [])
    (hpre : startsWithStr extVal envColonStr = false)
    (hf : f ≠ mainIniPath)
    (hmain : existsFile tree mainIniPath = true)
    (henv : sectionExists (parseIniAt tree mainIniPath) envWordStr = true) :
    ∃ pre v2,
      resolveBuildFlagsAux tree (fuel + 1) s f v =
        (pre ++ (resolveBuildFlagsAux tree fuel envWordStr mainIniPath v2).1,
         (resolveBuildFlagsAux tree fuel envWordStr mainIniPath v2).2) := by
  rw [resolve_eq_step]
  simp only [resolveStep, if_neg hk, hsec, hext]
  simp only [if_neg he0]
  have hpre' : ¬ (startsWithStr extVal envColonStr = true) := by simp [hpre]
  simp only [if_neg hpre']
  have hec : f ≠ mainIniPath ∧ existsFile tree mainIniPath = true ∧
      sectionExists (parseIniAt tree mainIniPath) envWordStr = true :=
    ⟨hf, hmain, henv⟩
  simp only [if_pos hec]
  exact ⟨_, _, rfl⟩

theorem claim_C2_witness :
    (mkVisitKey variantPath "env:v".toList ∉ ([] : List Str)
      ∧ lookupAssoc (parseIniAt treeC2 variantPath) "env:v".toList = some secC2
      ∧ lookupAssoc secC2.data extendsKey = some "mystery_base".toList
      ∧ "mystery_base".toList ≠ []
      ∧ startsWithStr "mystery_base".toList envColonStr = false
      ∧ variantPath ≠ mainIniPath
      ∧ existsFile treeC2 mainIniPath = true
      ∧ sectionExists (parseIniAt treeC2 mainIniPath) envWordStr = true)
    ∧ ∃ pre v2,
      resolveBuildFlagsAux treeC2 (2 + 1) "env:v".toList variantPath [] =
        (pre ++ (resolveBuildFlagsAux treeC2 2 envWordStr mainIniPath v2).1,
         (resolveBuildFlagsAux treeC2 2 envWordStr mainIniPath v2).2) :=
  ⟨⟨by decide, by decide, by decide, by decide, by decide, by decide, by decide,
    by decide⟩,
   claim_C2 treeC2 2 "env:v".toList variantPath [] secC2 "mystery_base".toList
     (by decide) (by decide) (by decide) (by decide) (by decide) (by decide)
     (by decide) (by decide)⟩

end FirmwareInfo
